import Mathlib

/-!
Verification of the Dirichlet model core (dirichlet_model.py).

The numerically meaningful parts of the repository are embedded as Lean
functions and the specified properties are proved about them:

* the mixture statistics of several Dirichlet parameter vectors
  (method _get_dirichlet_mixture_stats), modelled over the rationals;
* the Dirichlet negative log-likelihood loss built in the computation
  graph (method build), modelled over the reals with Real.log and
  Real.Gamma;
* batch concatenation and splitting (method _concatenate_batch together
  with the np.split call of predict_on_batch);
* the argmax / uncertainty computation of predict_on_batch.

Definitions named spec... restate formulas in the wording of the design
document; the theorems relate them to the embeddings of the code.
-/

namespace Cardio

/-! ### Embedding of _get_dirichlet_mixture_stats

The numpy code is, row by row (axis 1) and column by column (axis 0):
  alpha_sum = np.sum(alpha, axis=1)[:, np.newaxis]
  comp_m1 = alpha / alpha_sum
  comp_m2 = (alpha * (alpha + 1)) / (alpha_sum * (alpha_sum + 1))
  mean = np.mean(comp_m1, axis=0)
  var = np.mean(comp_m2, axis=0) - mean**2
A 2-D array is a list of rows; a column mean divides the column sum by the
number of rows. -/

/-- First moment of one Dirichlet component: alpha / alpha_sum, row-wise. -/
def compM1 (r : List ℚ) : List ℚ := r.map (fun a => a / r.sum)

/-- Second moment of one Dirichlet component:
(alpha * (alpha + 1)) / (alpha_sum * (alpha_sum + 1)), row-wise. -/
def compM2 (r : List ℚ) : List ℚ := r.map (fun a => a * (a + 1) / (r.sum * (r.sum + 1)))

/-- Number of columns of a 2-D array given as a list of rows. -/
def numCols (alpha : List (List ℚ)) : ℕ := (alpha.headD []).length

/-- Column-wise mean of a list of rows: np.mean(rows, axis=0). -/
def colMean (n : ℕ) (rows : List (List ℚ)) : List ℚ :=
  (List.range n).map (fun j => (rows.map (fun r => r.getD j 0)).sum / (rows.length : ℚ))

/-- Embedding of _get_dirichlet_mixture_stats: mean and variance of the
equal-weight mixture of the Dirichlet components given by the rows of alpha. -/
def dirichletMixtureStats (alpha : List (List ℚ)) : List ℚ × List ℚ :=
  (colMean (numCols alpha) (alpha.map compM1),
   List.zipWith (fun q p => q - p ^ 2) (colMean (numCols alpha) (alpha.map compM2))
     (colMean (numCols alpha) (alpha.map compM1)))

/-! ### The same statistics in the wording of the specification

The specification describes the mixture mean as the arithmetic mean, over
components, of the per-component first-moment vectors, and the mixture
variance as the arithmetic mean of the per-component second-moment vectors
minus the element-wise square of the mixture mean. -/

/-- Element-wise sum of two vectors. -/
def vadd (u v : List ℚ) : List ℚ := List.zipWith (· + ·) u v

/-- Sum of a list of vectors of length n. -/
def vecSum (n : ℕ) (rows : List (List ℚ)) : List ℚ := rows.foldr vadd (List.replicate n 0)

/-- Arithmetic mean of a list of vectors of length n. -/
def vecAvg (n : ℕ) (rows : List (List ℚ)) : List ℚ :=
  (vecSum n rows).map (fun x => x / (rows.length : ℚ))

/-- Mixture mean as worded in the specification: arithmetic mean over
components of the per-component first moments. -/
def specMixMean (alpha : List (List ℚ)) : List ℚ :=
  vecAvg (numCols alpha) (alpha.map compM1)

/-- Mixture variance as worded in the specification: arithmetic mean over
components of the per-component second moments, minus the element-wise
square of the mixture mean. -/
def specMixVar (alpha : List (List ℚ)) : List ℚ :=
  List.zipWith (fun q p => q - p ^ 2) (vecAvg (numCols alpha) (alpha.map compM2))
    (specMixMean alpha)

/-! ### Helper lemmas about columns of rectangular lists of rows -/

lemma getD_cons_succ' (a : ℚ) (t : List ℚ) (j : ℕ) :
    (a :: t).getD (j + 1) 0 = t.getD j 0 := rfl

lemma map_getD_range (r : List ℚ) :
    (List.range r.length).map (fun j => r.getD j 0) = r := by
  induction r with
  | nil => rfl
  | cons a t ih =>
    rw [List.length_cons, List.range_succ_eq_map, List.map_cons, List.map_map]
    simp only [Function.comp_def, getD_cons_succ']
    rw [ih]
    rfl

lemma zipWith_range_map (f : ℚ → ℚ → ℚ) :
    ∀ (r : List ℚ) (g : ℕ → ℚ),
      List.zipWith f r ((List.range r.length).map g) =
        (List.range r.length).map (fun j => f (r.getD j 0) (g j)) := by
  intro r
  induction r with
  | nil => intro g; rfl
  | cons a t ih =>
    intro g
    rw [List.length_cons, List.range_succ_eq_map, List.map_cons, List.map_map,
      List.zipWith_cons_cons, List.map_cons]
    congr 1
    have := ih (fun j => g (j + 1))
    simp only [Function.comp_def, Nat.succ_eq_add_one] at this ⊢
    rw [this, List.map_map]
    congr 1

lemma vecSum_eq_colSums (n : ℕ) :
    ∀ (rows : List (List ℚ)), (∀ r ∈ rows, r.length = n) →
      vecSum n rows = (List.range n).map (fun j => (rows.map (fun r => r.getD j 0)).sum) := by
  intro rows
  induction rows with
  | nil =>
    intro _
    simp [vecSum, List.map_const', List.length_range, List.eq_replicate_iff]
  | cons r rows ih =>
    intro h
    have hr : r.length = n := h r (List.mem_cons_self r rows)
    have hrec : ∀ s ∈ rows, s.length = n := fun s hs => h s (List.mem_cons_of_mem r hs)
    show vadd r (vecSum n rows) = _
    rw [ih hrec, vadd, ← hr, zipWith_range_map]
    simp only [List.map_cons, List.sum_cons]

lemma colMean_eq_vecAvg (n : ℕ) (rows : List (List ℚ)) (h : ∀ r ∈ rows, r.length = n) :
    colMean n rows = vecAvg n rows := by
  rw [vecAvg, vecSum_eq_colSums n rows h, List.map_map, colMean]
  rfl

lemma sum_map_add {α : Type} (l : List α) (f g : α → ℚ) :
    (l.map (fun x => f x + g x)).sum = (l.map f).sum + (l.map g).sum := by
  induction l with
  | nil => simp
  | cons a t ih =>
    simp only [List.map_cons, List.sum_cons, ih]
    ring

lemma sum_map_div {α : Type} (l : List α) (f : α → ℚ) (c : ℚ) :
    (l.map (fun x => f x / c)).sum = (l.map f).sum / c := by
  induction l with
  | nil => simp
  | cons a t ih =>
    simp only [List.map_cons, List.sum_cons, ih]
    ring

lemma compM1_sum (r : List ℚ) (h : r.sum ≠ 0) : (compM1 r).sum = 1 := by
  have h2 : (r.map (fun a => a / r.sum)).sum = (r.map (fun a => a)).sum / r.sum :=
    sum_map_div r (fun a => a) r.sum
  rw [compM1, h2, List.map_id', div_self h]

lemma sum_colSums (n : ℕ) (rows : List (List ℚ)) :
    ((List.range n).map (fun j => (rows.map (fun r => r.getD j 0)).sum)).sum =
      (rows.map (fun r => ((List.range n).map (fun j => r.getD j 0)).sum)).sum := by
  induction rows with
  | nil => simp
  | cons r rows ih =>
    simp only [List.map_cons, List.sum_cons]
    rw [sum_map_add (List.range n) (fun j => r.getD j 0)
      (fun j => (rows.map (fun rr => rr.getD j 0)).sum), ih]

lemma colMean_single (v : List ℚ) (n : ℕ) (h : v.length = n) : colMean n [v] = v := by
  subst h
  rw [colMean]
  simp only [List.map_cons, List.map_nil, List.sum_cons, List.sum_nil, add_zero,
    List.length_singleton, Nat.cast_one, div_one]
  exact map_getD_range v

lemma numCols_eq (alpha : List (List ℚ)) (n : ℕ) (hne : alpha ≠ [])
    (hrect : ∀ r ∈ alpha, r.length = n) : numCols alpha = n := by
  cases alpha with
  | nil => exact absurd rfl hne
  | cons r t => exact hrect r (List.mem_cons_self r t)

/-- C1: for a 2-D input with at least one row and positive entries,
_get_dirichlet_mixture_stats returns the mixture mean (arithmetic mean over
rows of the per-row first moments) and the mixture variance (arithmetic mean
over rows of the per-row second moments minus the element-wise square of the
mean); for a single-row input the result is that row's own Dirichlet mean
and variance. -/
theorem dirichletMixtureStats_eq_spec (alpha : List (List ℚ)) (n : ℕ)
    (hne : alpha ≠ []) (hrect : ∀ r ∈ alpha, r.length = n)
    (hpos : ∀ r ∈ alpha, ∀ a ∈ r, 0 < a) :
    dirichletMixtureStats alpha = (specMixMean alpha, specMixVar alpha) ∧
    ∀ r : List ℚ, alpha = [r] →
      dirichletMixtureStats alpha =
        (compM1 r, List.zipWith (fun q p => q - p ^ 2) (compM2 r) (compM1 r)) := by
  have h1 : ∀ v ∈ alpha.map compM1, v.length = numCols alpha := by
    intro v hv
    rcases List.mem_map.mp hv with ⟨r, hr, rfl⟩
    rw [numCols_eq alpha n hne hrect, compM1, List.length_map]
    exact hrect r hr
  have h2 : ∀ v ∈ alpha.map compM2, v.length = numCols alpha := by
    intro v hv
    rcases List.mem_map.mp hv with ⟨r, hr, rfl⟩
    rw [numCols_eq alpha n hne hrect, compM2, List.length_map]
    exact hrect r hr
  constructor
  · rw [dirichletMixtureStats, specMixVar, specMixMean,
      colMean_eq_vecAvg (numCols alpha) (alpha.map compM1) h1,
      colMean_eq_vecAvg (numCols alpha) (alpha.map compM2) h2]
  · rintro r rfl
    have hl1 : (compM1 r).length = r.length := List.length_map r _
    have hl2 : (compM2 r).length = r.length := List.length_map r _
    have hnum : numCols [r] = r.length := rfl
    rw [dirichletMixtureStats, hnum, List.map_cons, List.map_nil, List.map_cons, List.map_nil,
      colMean_single _ _ hl1, colMean_single _ _ hl2]

theorem dirichletMixtureStats_eq_spec_witness :
    ([[(1 : ℚ), 2], [3, 4]] ≠ ([] : List (List ℚ))) ∧
      dirichletMixtureStats [[(1 : ℚ), 2], [3, 4]] =
        (specMixMean [[(1 : ℚ), 2], [3, 4]], specMixVar [[(1 : ℚ), 2], [3, 4]]) :=
  ⟨by decide, (dirichletMixtureStats_eq_spec [[(1 : ℚ), 2], [3, 4]] 2 (by decide)
    (by decide) (by decide)).1⟩

/-- C6: for every 2-D input with at least one row, at least one class and
all entries positive, the entries of the mean vector returned by
_get_dirichlet_mixture_stats sum to exactly 1 in rational arithmetic. -/
theorem mixture_mean_sum_one (alpha : List (List ℚ)) (n : ℕ)
    (hne : alpha ≠ []) (hn : 0 < n)
    (hrect : ∀ r ∈ alpha, r.length = n)
    (hpos : ∀ r ∈ alpha, ∀ a ∈ r, 0 < a) :
    (dirichletMixtureStats alpha).1.sum = 1 := by
  have hcols : numCols alpha = n := numCols_eq alpha n hne hrect
  have hstat : (dirichletMixtureStats alpha).1 = colMean n (alpha.map compM1) := by
    rw [dirichletMixtureStats, hcols]
  rw [hstat, colMean]
  simp only [List.length_map]
  rw [sum_map_div (List.range n)
    (fun j => ((alpha.map compM1).map (fun r => r.getD j 0)).sum) (alpha.length : ℚ),
    sum_colSums]
  have hrw : (alpha.map compM1).map (fun r => ((List.range n).map (fun j => r.getD j 0)).sum)
      = alpha.map (fun _ => (1 : ℚ)) := by
    rw [List.map_map]
    refine List.map_congr_left ?_
    intro r hr
    have hrlen : 0 < r.length := by rw [hrect r hr]; exact hn
    have hrne : r ≠ [] := List.length_pos.mp hrlen
    have hsum : r.sum ≠ 0 := ne_of_gt (List.sum_pos r (hpos r hr) hrne)
    have hrl : (compM1 r).length = n := by rw [compM1, List.length_map]; exact hrect r hr
    show ((List.range n).map (fun j => (compM1 r).getD j 0)).sum = 1
    rw [← hrl, map_getD_range, compM1_sum r hsum]
  rw [hrw]
  have hones : (alpha.map (fun _ => (1 : ℚ))).sum = (alpha.length : ℚ) := by
    simp [List.map_const', List.sum_replicate, nsmul_eq_mul]
  rw [hones, div_self]
  exact Nat.cast_ne_zero.mpr (fun h => hne (List.length_eq_zero.mp h))

theorem mixture_mean_sum_one_witness :
    ([[(1 : ℚ), 1], [2, 6]] ≠ ([] : List (List ℚ))) ∧ 0 < 2 ∧
      (dirichletMixtureStats [[(1 : ℚ), 1], [2, 6]]).1.sum = 1 :=
  ⟨by decide, by decide, mixture_mean_sum_one [[(1 : ℚ), 1], [2, 6]] 2 (by decide)
    (by decide) (by decide) (by decide)⟩

lemma getD_map (f : ℚ → ℚ) (r : List ℚ) (j : ℕ) (h : j < r.length) :
    (r.map f).getD j 0 = f (r.getD j 0) := by
  have hj : j < (r.map f).length := by rw [List.length_map]; exact h
  rw [List.getD_eq_getElem _ _ hj, List.getD_eq_getElem _ _ h, List.getElem_map]

lemma getD_mem (r : List ℚ) (j : ℕ) (h : j < r.length) : r.getD j 0 ∈ r := by
  rw [List.getD_eq_getElem _ _ h]
  exact List.getElem_mem h

lemma sq_sum_le_length_mul_sum_sq (l : List ℚ) :
    l.sum ^ 2 ≤ (l.length : ℚ) * (l.map (fun x => x ^ 2)).sum := by
  induction l with
  | nil => simp
  | cons a t ih =>
    simp only [List.sum_cons, List.map_cons, List.length_cons]
    push_cast
    have ht : (0 : ℚ) ≤ (t.map (fun x => x ^ 2)).sum := by
      refine List.sum_nonneg ?_
      intro x hx
      rcases List.mem_map.mp hx with ⟨y, _, rfl⟩
      positivity
    have hk : (0 : ℚ) ≤ (t.length : ℚ) := Nat.cast_nonneg _
    rcases eq_or_lt_of_le hk with hk0 | hkpos
    · have ht0 : t = [] := by
        have hl : t.length = 0 := by exact_mod_cast hk0.symm
        exact List.length_eq_zero.mp hl
      subst ht0
      simp
    · have hfac : 0 ≤ ((t.length : ℚ) + 1) *
          ((t.length : ℚ) * (t.map (fun x => x ^ 2)).sum - t.sum ^ 2) +
          ((t.length : ℚ) * a - t.sum) ^ 2 :=
        add_nonneg (mul_nonneg (by positivity) (sub_nonneg.mpr ih)) (sq_nonneg _)
      nlinarith [hfac, hkpos]

lemma compM2_getD_ge (r : List ℚ) (j : ℕ) (hj : j < r.length)
    (hpos : ∀ a ∈ r, 0 < a) :
    ((compM1 r).getD j 0) ^ 2 ≤ (compM2 r).getD j 0 := by
  have hmem := getD_mem r j hj
  have ha : 0 < r.getD j 0 := hpos _ hmem
  have hS : 0 < r.sum :=
    List.sum_pos r hpos (List.length_pos.mp (lt_of_le_of_lt (Nat.zero_le j) hj))
  have haS : r.getD j 0 ≤ r.sum := List.single_le_sum (fun x hx => (hpos x hx).le) _ hmem
  rw [compM1, getD_map _ _ _ hj, compM2, getD_map _ _ _ hj]
  rw [div_pow, div_le_div_iff (by positivity) (by positivity)]
  nlinarith [mul_nonneg (mul_nonneg ha.le hS.le) (sub_nonneg.mpr haS)]

/-- C10: for every 2-D input with at least one row and all entries positive,
every entry of the variance vector returned by _get_dirichlet_mixture_stats
is nonnegative. -/
theorem mixture_var_nonneg (alpha : List (List ℚ)) (n : ℕ)
    (hne : alpha ≠ []) (hrect : ∀ r ∈ alpha, r.length = n)
    (hpos : ∀ r ∈ alpha, ∀ a ∈ r, 0 < a) :
    ∀ v ∈ (dirichletMixtureStats alpha).2, 0 ≤ v := by
  intro v hv
  have hcols : numCols alpha = n := numCols_eq alpha n hne hrect
  have h2 : (dirichletMixtureStats alpha).2 =
      List.zipWith (fun q p => q - p ^ 2) (colMean n (alpha.map compM2))
        (colMean n (alpha.map compM1)) := by
    rw [dirichletMixtureStats, hcols]
  rw [h2, colMean, colMean, List.zipWith_map] at hv
  rw [List.zipWith_same] at hv
  rcases List.mem_map.mp hv with ⟨j, hjmem, rfl⟩
  have hj : j < n := List.mem_range.mp hjmem
  simp only [List.map_map, List.length_map, Function.comp_def]
  have hple : ∀ r ∈ alpha, ((compM1 r).getD j 0) ^ 2 ≤ (compM2 r).getD j 0 := by
    intro r hr
    exact compM2_getD_ge r j (by rw [hrect r hr]; exact hj) (hpos r hr)
  have hQge : (alpha.map (fun r => ((compM1 r).getD j 0) ^ 2)).sum ≤
      (alpha.map (fun r => (compM2 r).getD j 0)).sum :=
    List.sum_le_sum hple
  have hCS : (alpha.map (fun r => (compM1 r).getD j 0)).sum ^ 2 ≤
      (alpha.length : ℚ) * (alpha.map (fun r => ((compM1 r).getD j 0) ^ 2)).sum := by
    have h := sq_sum_le_length_mul_sum_sq (alpha.map (fun r => (compM1 r).getD j 0))
    rw [List.length_map, List.map_map] at h
    simpa [Function.comp_def] using h
  have hm : (0 : ℚ) < (alpha.length : ℚ) :=
    Nat.cast_pos.mpr (List.length_pos.mpr hne)
  rw [sub_nonneg, div_pow, div_le_div_iff (by positivity) (by positivity)]
  nlinarith [mul_le_mul_of_nonneg_right hCS hm.le,
    mul_le_mul_of_nonneg_right hQge (mul_nonneg hm.le hm.le)]

theorem mixture_var_nonneg_witness :
    ([[(1 : ℚ), 2], [3, 4]] ≠ ([] : List (List ℚ))) ∧
      ∀ v ∈ (dirichletMixtureStats [[(1 : ℚ), 2], [3, 4]]).2, 0 ≤ v :=
  ⟨by decide, mixture_var_nonneg [[(1 : ℚ), 2], [3, 4]] 2 (by decide) (by decide) (by decide)⟩

/-! ### Embedding of the prediction step of predict_on_batch

predict_on_batch computes, per aggregate item,
  uncertainty = var[np.argmax(mean)] / max_var
with max_var = (n_classes - 1) / n_classes**2. np.argmax returns the first
index attaining the maximum. -/

/-- First index of the maximum entry of a list: np.argmax. -/
def argmaxIdx : List ℚ → ℕ
  | [] => 0
  | [_] => 0
  | a :: b :: rest =>
    if (b :: rest).getD (argmaxIdx (b :: rest)) 0 ≤ a then 0 else argmaxIdx (b :: rest) + 1

/-- Normalizing constant max_var = (n_classes - 1) / n_classes**2. -/
def maxVar (n : ℕ) : ℚ := ((n : ℚ) - 1) / (n : ℚ) ^ 2

/-- Uncertainty score of predict_on_batch: var[np.argmax(mean)] / max_var. -/
def uncertaintyScore (mean var : List ℚ) (n : ℕ) : ℚ :=
  var.getD (argmaxIdx mean) 0 / maxVar n

lemma argmaxIdx_lt : ∀ (l : List ℚ), l ≠ [] → argmaxIdx l < l.length
  | [], h => absurd rfl h
  | [_], _ => by simp [argmaxIdx]
  | a :: b :: rest, _ => by
    simp only [argmaxIdx]
    split
    · simp
    · have ih := argmaxIdx_lt (b :: rest) (List.cons_ne_nil b rest)
      simpa using Nat.succ_lt_succ ih

lemma argmaxIdx_is_max : ∀ (l : List ℚ), ∀ x ∈ l, x ≤ l.getD (argmaxIdx l) 0
  | [] => by intro x hx; cases hx
  | [a] => by
    intro x hx
    rcases List.mem_singleton.mp hx with rfl
    simp [argmaxIdx]
  | a :: b :: rest => by
    intro x hx
    have ih := argmaxIdx_is_max (b :: rest)
    simp only [argmaxIdx]
    split
    · rename_i hcond
      rcases List.mem_cons.mp hx with rfl | hxt
      · exact le_refl _
      · exact le_trans (ih x hxt) hcond
    · rename_i hcond
      rcases List.mem_cons.mp hx with rfl | hxt
      · exact (not_le.mp hcond).le
      · exact ih x hxt

/-- C3: the predicted class index realizes the maximum entry of the mean
vector (it is a valid index and every entry of the mean is at most the entry
at that index), and the uncertainty score equals the variance at that index
divided by (n_classes - 1) / n_classes^2. -/
theorem predict_argmax_uncertainty (mean var : List ℚ) (n : ℕ) (hne : mean ≠ []) :
    argmaxIdx mean < mean.length ∧
    (∀ x ∈ mean, x ≤ mean.getD (argmaxIdx mean) 0) ∧
    uncertaintyScore mean var n =
      var.getD (argmaxIdx mean) 0 / (((n : ℚ) - 1) / (n : ℚ) ^ 2) :=
  ⟨argmaxIdx_lt mean hne, argmaxIdx_is_max mean, rfl⟩

theorem predict_argmax_uncertainty_witness :
    ([(1 : ℚ)/2, 1/3, 1/6] ≠ ([] : List ℚ)) ∧
      (argmaxIdx [(1 : ℚ)/2, 1/3, 1/6] < ([(1 : ℚ)/2, 1/3, 1/6] : List ℚ).length ∧
       (∀ x ∈ [(1 : ℚ)/2, 1/3, 1/6],
          x ≤ ([(1 : ℚ)/2, 1/3, 1/6] : List ℚ).getD (argmaxIdx [(1 : ℚ)/2, 1/3, 1/6]) 0) ∧
       uncertaintyScore [(1 : ℚ)/2, 1/3, 1/6] [(1 : ℚ)/9, 1/9, 1/9] 3 =
         ([(1 : ℚ)/9, 1/9, 1/9] : List ℚ).getD (argmaxIdx [(1 : ℚ)/2, 1/3, 1/6]) 0 /
           (((3 : ℚ) - 1) / (3 : ℚ) ^ 2)) :=
  ⟨by decide, predict_argmax_uncertainty [(1 : ℚ)/2, 1/3, 1/6] [(1 : ℚ)/9, 1/9, 1/9] 3 (by decide)⟩

/-! ### Embedding of _concatenate_batch and of the np.split call

_concatenate_batch stacks the item signals along the row axis, tiles each
item target to that item's row count, and records
np.cumsum(row counts)[:-1] as split indices. predict_on_batch later calls
np.split(alpha, split_indices) on an array with the same row count as the
stacked signals. -/

/-- One batch item: a 2-D signal (list of time rows) and a target vector. -/
structure BatchItem where
  signal : List (List ℚ)
  target : List ℚ
  deriving DecidableEq

/-- Running totals of a list of naturals starting from acc: np.cumsum. -/
def cumsumFrom (acc : ℕ) : List ℕ → List ℕ
  | [] => []
  | a :: t => (acc + a) :: cumsumFrom (acc + a) t

/-- np.cumsum of a list of naturals. -/
def cumsum (l : List ℕ) : List ℕ := cumsumFrom 0 l

/-- Embedding of _concatenate_batch: stacked signals, stacked tiled targets,
and the split indices np.cumsum(row counts)[:-1]. -/
def concatenateBatch (batch : List BatchItem) :
    List (List ℚ) × List (List ℚ) × List ℕ :=
  ((batch.map (fun item => item.signal)).flatten,
   (batch.map (fun item => List.replicate item.signal.length item.target)).flatten,
   (cumsum (batch.map (fun item => item.signal.length))).dropLast)

/-- Sections of np.split: slices of arr between consecutive split indices,
with the implicit boundaries 0 and arr.length. -/
def npSplitAux {α : Type} (arr : List α) (prev : ℕ) : List ℕ → List (List α)
  | [] => [arr.drop prev]
  | i :: rest => (arr.drop prev).take (i - prev) :: npSplitAux arr i rest

/-- np.split of arr at the given ascending indices. -/
def npSplit {α : Type} (arr : List α) (indices : List ℕ) : List (List α) :=
  npSplitAux arr 0 indices

lemma npSplitAux_spec {α : Type} :
    ∀ (sizes : List ℕ) (arr : List α) (p : ℕ), sizes ≠ [] →
      arr.length = p + sizes.sum →
      (npSplitAux arr p ((cumsumFrom p sizes).dropLast)).map List.length = sizes ∧
      (npSplitAux arr p ((cumsumFrom p sizes).dropLast)).flatten = arr.drop p
  | [], _, _, hne, _ => absurd rfl hne
  | [s], arr, p, _, hlen => by
    have h0 : (cumsumFrom p [s]).dropLast = ([] : List ℕ) := rfl
    rw [h0]
    simp only [npSplitAux, List.map_cons, List.map_nil, List.flatten_cons, List.flatten_nil,
      List.append_nil, List.length_drop]
    constructor
    · rw [hlen, List.sum_cons, List.sum_nil]
      congr 1
      omega
    · trivial
  | s :: s2 :: rest, arr, p, _, hlen => by
    have hsum : arr.length = (p + s) + (s2 :: rest).sum := by
      rw [hlen, List.sum_cons]
      omega
    have ih := npSplitAux_spec (s2 :: rest) arr (p + s) (List.cons_ne_nil _ _) hsum
    have hcs : cumsumFrom p (s :: s2 :: rest) = (p + s) :: cumsumFrom (p + s) (s2 :: rest) := rfl
    have hcs2 : cumsumFrom (p + s) (s2 :: rest) =
        (p + s + s2) :: cumsumFrom (p + s + s2) rest := rfl
    rw [hcs, hcs2, List.dropLast_cons₂, ← hcs2]
    simp only [npSplitAux, List.map_cons, List.flatten_cons]
    have hidx : p + s - p = s := by omega
    rw [hidx]
    constructor
    · rw [ih.1]
      congr 1
      rw [List.length_take, List.length_drop, hlen, List.sum_cons]
      omega
    · rw [ih.2]
      have hdd : arr.drop (p + s) = (arr.drop p).drop s := (List.drop_drop s p arr).symm
      rw [hdd, List.take_append_drop]

lemma eq_of_map_length_eq_of_flatten_eq {α : Type} (as : List (List α)) :
    ∀ bs : List (List α), as.map List.length = bs.map List.length →
      as.flatten = bs.flatten → as = bs := by
  induction as with
  | nil =>
    intro bs h _
    cases bs with
    | nil => rfl
    | cons b bs => simp at h
  | cons a as ih =>
    intro bs h hf
    cases bs with
    | nil => simp at h
    | cons b bs =>
      simp only [List.map_cons, List.cons.injEq] at h
      simp only [List.flatten_cons] at hf
      have hab := List.append_inj hf h.1
      rw [hab.1, ih bs h.2 hab.2]

/-- C4: splitting any array with the same row count as the stacked signal
array at the offsets recorded by _concatenate_batch yields one group per
item, each with exactly that item's signal row count, in item order, and
the groups concatenate back to the array. -/
theorem split_concatenate_roundtrip {α : Type} (batch : List BatchItem) (arr : List α)
    (hne : batch ≠ [])
    (hlen : arr.length = (concatenateBatch batch).1.length) :
    (npSplit arr ((concatenateBatch batch).2.2)).map List.length =
      batch.map (fun item => item.signal.length) ∧
    (npSplit arr ((concatenateBatch batch).2.2)).flatten = arr := by
  have hsizes : batch.map (fun item => item.signal.length) ≠ [] := by
    cases batch with
    | nil => exact absurd rfl hne
    | cons b t => simp
  have hlen0 : arr.length = 0 + (batch.map (fun item => item.signal.length)).sum := by
    rw [hlen, Nat.zero_add]
    show (batch.map (fun item => item.signal)).flatten.length = _
    rw [List.length_flatten, List.map_map]
    rfl
  have h := npSplitAux_spec (batch.map (fun item => item.signal.length)) arr 0 hsizes hlen0
  refine ⟨h.1, ?_⟩
  show (npSplitAux arr 0
    ((cumsumFrom 0 (batch.map (fun item => item.signal.length))).dropLast)).flatten = arr
  rw [h.2, List.drop_zero]

theorem split_concatenate_roundtrip_witness :
    ([BatchItem.mk [[(1 : ℚ), 2]] [1, 0], BatchItem.mk [[(3 : ℚ), 4], [5, 6]] [0, 1]] ≠ []) ∧
    (([10, 20, 30] : List ℕ).length =
      (concatenateBatch [BatchItem.mk [[(1 : ℚ), 2]] [1, 0],
        BatchItem.mk [[(3 : ℚ), 4], [5, 6]] [0, 1]]).1.length) ∧
    ((npSplit ([10, 20, 30] : List ℕ)
        ((concatenateBatch [BatchItem.mk [[(1 : ℚ), 2]] [1, 0],
          BatchItem.mk [[(3 : ℚ), 4], [5, 6]] [0, 1]]).2.2)).map List.length =
      [BatchItem.mk [[(1 : ℚ), 2]] [1, 0], BatchItem.mk [[(3 : ℚ), 4], [5, 6]] [0, 1]].map
        (fun item => item.signal.length) ∧
     (npSplit ([10, 20, 30] : List ℕ)
        ((concatenateBatch [BatchItem.mk [[(1 : ℚ), 2]] [1, 0],
          BatchItem.mk [[(3 : ℚ), 4], [5, 6]] [0, 1]]).2.2)).flatten = [10, 20, 30]) :=
  ⟨by decide, by decide,
    split_concatenate_roundtrip
      [BatchItem.mk [[(1 : ℚ), 2]] [1, 0], BatchItem.mk [[(3 : ℚ), 4], [5, 6]] [0, 1]]
      ([10, 20, 30] : List ℕ) (by decide) (by decide)⟩

/-- C8: splitting the stacked target array at the recorded offsets yields,
for each item, exactly that item's signal row count copies of its target
vector, in item order; and the stacked target array has the same row count
as the stacked signal array. -/
theorem target_tiling (batch : List BatchItem) (hne : batch ≠ []) :
    npSplit ((concatenateBatch batch).2.1) ((concatenateBatch batch).2.2) =
      batch.map (fun item => List.replicate item.signal.length item.target) ∧
    (concatenateBatch batch).2.1.length = (concatenateBatch batch).1.length := by
  have hgs : (batch.map (fun item => List.replicate item.signal.length item.target)).map
      List.length = batch.map (fun item => item.signal.length) := by
    rw [List.map_map]
    simp only [Function.comp_def, List.length_replicate]
  have hsizes : batch.map (fun item => item.signal.length) ≠ [] := by
    cases batch with
    | nil => exact absurd rfl hne
    | cons b t => simp
  have hylen : (concatenateBatch batch).2.1.length =
      0 + (batch.map (fun item => item.signal.length)).sum := by
    show (batch.map (fun item => List.replicate item.signal.length item.target)).flatten.length = _
    rw [List.length_flatten, hgs, Nat.zero_add]
  have h := npSplitAux_spec (batch.map (fun item => item.signal.length))
    ((concatenateBatch batch).2.1) 0 hsizes hylen
  constructor
  · refine eq_of_map_length_eq_of_flatten_eq _ _ ?_ ?_
    · show (npSplitAux ((concatenateBatch batch).2.1) 0
        ((cumsumFrom 0 (batch.map (fun item => item.signal.length))).dropLast)).map
          List.length = _
      rw [h.1, ← hgs]
    · show (npSplitAux ((concatenateBatch batch).2.1) 0
        ((cumsumFrom 0 (batch.map (fun item => item.signal.length))).dropLast)).flatten = _
      rw [h.2, List.drop_zero]
      rfl
  · rw [hylen, Nat.zero_add]
    show _ = (batch.map (fun item => item.signal)).flatten.length
    rw [List.length_flatten, List.map_map]
    rfl

theorem target_tiling_witness :
    ([BatchItem.mk [[(2 : ℚ)], [3]] [1]] ≠ []) ∧
    (npSplit ((concatenateBatch [BatchItem.mk [[(2 : ℚ)], [3]] [1]]).2.1)
        ((concatenateBatch [BatchItem.mk [[(2 : ℚ)], [3]] [1]]).2.2) =
      [BatchItem.mk [[(2 : ℚ)], [3]] [1]].map
        (fun item => List.replicate item.signal.length item.target) ∧
     (concatenateBatch [BatchItem.mk [[(2 : ℚ)], [3]] [1]]).2.1.length =
       (concatenateBatch [BatchItem.mk [[(2 : ℚ)], [3]] [1]]).1.length) :=
  ⟨by decide, target_tiling [BatchItem.mk [[(2 : ℚ)], [3]] [1]] (by decide)⟩

lemma cumsumFrom_add (t : List ℕ) : ∀ (p q : ℕ),
    cumsumFrom (p + q) t = (cumsumFrom q t).map (fun x => p + x) := by
  induction t with
  | nil => intro p q; rfl
  | cons a t ih =>
    intro p q
    simp only [cumsumFrom, List.map_cons]
    rw [Nat.add_assoc, ih p (q + a)]

lemma cumsum_eq_partial_sums (l : List ℕ) :
    cumsum l = (List.range l.length).map (fun i => (l.take (i + 1)).sum) := by
  induction l with
  | nil => rfl
  | cons a t ih =>
    have h1 : cumsum (a :: t) = a :: cumsumFrom a t := by
      show cumsumFrom 0 (a :: t) = _
      simp [cumsumFrom]
    have h2 : cumsumFrom a t = (cumsum t).map (fun x => a + x) := by
      have h := cumsumFrom_add t a 0
      simpa using h
    rw [h1, h2, ih, List.length_cons, List.range_succ_eq_map, List.map_cons, List.map_map,
      List.map_map]
    congr 1

lemma cumsumFrom_lt : ∀ (t : List ℕ) (p : ℕ), (∀ x ∈ t, 0 < x) →
    ∀ y ∈ cumsumFrom p t, p < y
  | [], _, _, _, hy => by cases hy
  | a :: t, p, hpos, y, hy => by
    simp only [cumsumFrom, List.mem_cons] at hy
    have ha : 0 < a := hpos a (List.mem_cons_self a t)
    rcases hy with rfl | hy
    · omega
    · have h := cumsumFrom_lt t (p + a) (fun x hx => hpos x (List.mem_cons_of_mem a hx)) y hy
      omega

lemma cumsumFrom_pairwise : ∀ (t : List ℕ) (p : ℕ), (∀ x ∈ t, 0 < x) →
    (cumsumFrom p t).Pairwise (· < ·)
  | [], _, _ => List.Pairwise.nil
  | a :: t, p, hpos => by
    have htail := cumsumFrom_pairwise t (p + a)
      (fun x hx => hpos x (List.mem_cons_of_mem a hx))
    refine List.Pairwise.cons ?_ htail
    intro y hy
    exact cumsumFrom_lt t (p + a) (fun x hx => hpos x (List.mem_cons_of_mem a hx)) y hy

/-- C9: the split offsets recorded by _concatenate_batch are the cumulative
row counts of the items in order with the last cumulative value omitted,
and (each item having at least one signal row) they are strictly
increasing. -/
theorem split_offsets_cumulative (batch : List BatchItem)
    (hpos : ∀ item ∈ batch, 0 < item.signal.length) :
    (concatenateBatch batch).2.2 =
      ((List.range batch.length).map
        (fun i => ((batch.map (fun item => item.signal.length)).take (i + 1)).sum)).dropLast ∧
    ((concatenateBatch batch).2.2).Pairwise (· < ·) := by
  constructor
  · show (cumsum (batch.map (fun item => item.signal.length))).dropLast = _
    rw [cumsum_eq_partial_sums, List.length_map]
  · show ((cumsum (batch.map (fun item => item.signal.length))).dropLast).Pairwise (· < ·)
    have hp : ∀ x ∈ batch.map (fun item => item.signal.length), 0 < x := by
      intro x hx
      rcases List.mem_map.mp hx with ⟨item, hitem, rfl⟩
      exact hpos item hitem
    exact (cumsumFrom_pairwise _ 0 hp).sublist (List.dropLast_sublist _)

theorem split_offsets_cumulative_witness :
    (∀ item ∈ [BatchItem.mk [[(1 : ℚ)]] [1], BatchItem.mk [[(2 : ℚ)], [3]] [0]],
        0 < item.signal.length) ∧
    ((concatenateBatch [BatchItem.mk [[(1 : ℚ)]] [1], BatchItem.mk [[(2 : ℚ)], [3]] [0]]).2.2 =
      ((List.range ([BatchItem.mk [[(1 : ℚ)]] [1],
          BatchItem.mk [[(2 : ℚ)], [3]] [0]] : List BatchItem).length).map
        (fun i => (([BatchItem.mk [[(1 : ℚ)]] [1], BatchItem.mk [[(2 : ℚ)], [3]] [0]].map
          (fun item => item.signal.length)).take (i + 1)).sum)).dropLast ∧
     ((concatenateBatch [BatchItem.mk [[(1 : ℚ)]] [1],
        BatchItem.mk [[(2 : ℚ)], [3]] [0]]).2.2).Pairwise (· < ·)) :=
  ⟨by decide,
    split_offsets_cumulative [BatchItem.mk [[(1 : ℚ)]] [1], BatchItem.mk [[(2 : ℚ)], [3]] [0]]
      (by decide)⟩

/-! ### Embedding of the loss built in the computation graph

build constructs, with k = 0.001:
  target = (1 - 2 * k) * self._target + k
  loss = reduce_mean(lbeta(output) - reduce_sum((output - 1) * log(target), axis=1))
where tf.lbeta(x) is the log of the multivariate Beta function of each row:
sum of lgamma over the row minus lgamma of the row sum. The floating-point
tensors are modelled by real numbers. -/

/-- Smoothing constant k = 0.001 of build. -/
noncomputable def kConst : ℝ := 0.001

/-- Log-Gamma, the lgamma primitive of the framework. -/
noncomputable def lgamma (x : ℝ) : ℝ := Real.log (Real.Gamma x)

/-- tf.lbeta of one row: sum of lgamma of the entries minus lgamma of
their sum. -/
noncomputable def lbeta (v : List ℝ) : ℝ := (v.map lgamma).sum - lgamma v.sum

/-- Target smoothing of build: (1 - 2 * k) * target + k, element-wise. -/
noncomputable def smoothRow (t : List ℝ) : List ℝ :=
  t.map (fun y => (1 - 2 * kConst) * y + kConst)

/-- The smoothing applied to the whole target matrix. -/
noncomputable def smoothTarget (t : List (List ℝ)) : List (List ℝ) := t.map smoothRow

/-- One row of the loss tensor: lbeta(alpha_row) minus the row sum of
(alpha - 1) * log(target). -/
noncomputable def rowTerm (a t : List ℝ) : ℝ :=
  lbeta a - (List.zipWith (fun ac tc => (ac - 1) * Real.log tc) a t).sum

/-- Embedding of the loss of build: reduce_mean of the per-row terms over
the stacked sample rows, the target having been smoothed first. -/
noncomputable def dirichletLoss (alpha target : List (List ℝ)) : ℝ :=
  (List.zipWith rowTerm alpha (smoothTarget target)).sum /
    ((List.zipWith rowTerm alpha (smoothTarget target)).length : ℝ)

/-- Log of the multivariate Beta function as worded in the specification:
sum of log-Gamma of each parameter minus log-Gamma of their sum. -/
noncomputable def logB (v : List ℝ) : ℝ :=
  (v.map (fun x => Real.log (Real.Gamma x))).sum - Real.log (Real.Gamma v.sum)

/-- Per-sample loss term as worded in the specification, with the smoothed
target written inline. -/
noncomputable def specRowLoss (a t : List ℝ) : ℝ :=
  logB a - (List.zipWith (fun ac tc => (ac - 1) *
    Real.log ((1 - 2 * kConst) * tc + kConst)) a t).sum

/-- Scalar loss as worded in the specification: arithmetic mean over all
sample rows of the per-sample terms. -/
noncomputable def specLoss (alpha target : List (List ℝ)) : ℝ :=
  (List.zipWith specRowLoss alpha target).sum / (alpha.length : ℝ)

/-- C2: for a predicted parameter matrix and a target matrix with the same
row count, the loss of build equals the arithmetic mean over rows of
log B(alpha_row) - sum((alpha_c - 1) * log(target smoothed with k = 0.001)). -/
theorem dirichletLoss_eq_specLoss (alpha target : List (List ℝ))
    (hlen : alpha.length = target.length) :
    dirichletLoss alpha target = specLoss alpha target := by
  have hfun : (fun a t => rowTerm a (smoothRow t)) = specRowLoss := by
    funext a t
    rw [rowTerm, specRowLoss, smoothRow, List.zipWith_map_right]
    rfl
  have hz : List.zipWith rowTerm alpha (smoothTarget target) =
      List.zipWith specRowLoss alpha target := by
    rw [smoothTarget, List.zipWith_map_right, hfun]
  rw [dirichletLoss, hz, specLoss, List.length_zipWith, hlen, Nat.min_self]

theorem dirichletLoss_eq_specLoss_witness :
    ([[(1 : ℝ)], [2]] : List (List ℝ)).length = ([[(1 : ℝ)], [0]] : List (List ℝ)).length ∧
      dirichletLoss [[(1 : ℝ)], [2]] [[(1 : ℝ)], [0]] =
        specLoss [[(1 : ℝ)], [2]] [[(1 : ℝ)], [0]] :=
  ⟨rfl, dirichletLoss_eq_specLoss [[(1 : ℝ)], [2]] [[(1 : ℝ)], [0]] rfl⟩

lemma zipWith_map_pair {β : Type} (f : List ℝ → List ℝ → ℝ) (g h : β → List ℝ)
    (p : List β) :
    List.zipWith f (p.map g) (p.map h) = p.map (fun x => f (g x) (h x)) := by
  induction p with
  | nil => rfl
  | cons a t ih => simp only [List.map_cons, List.zipWith_cons_cons, ih]

/-- C7: the scalar loss is invariant under a simultaneous permutation of
the rows of the (alpha, target) pair of matrices. -/
theorem loss_perm_invariant (p q : List (List ℝ × List ℝ)) (hperm : p.Perm q) :
    dirichletLoss (p.map Prod.fst) (p.map Prod.snd) =
      dirichletLoss (q.map Prod.fst) (q.map Prod.snd) := by
  have hball : ∀ (r : List (List ℝ × List ℝ)),
      List.zipWith rowTerm (r.map Prod.fst) (smoothTarget (r.map Prod.snd)) =
        r.map (fun x => rowTerm x.1 (smoothRow x.2)) := by
    intro r
    rw [smoothTarget, List.map_map]
    exact zipWith_map_pair rowTerm Prod.fst (smoothRow ∘ Prod.snd) r
  have hs := (hperm.map (fun x => rowTerm x.1 (smoothRow x.2))).sum_eq
  have hl := hperm.length_eq
  rw [dirichletLoss, dirichletLoss, hball p, hball q, hs, List.length_map, List.length_map, hl]

theorem loss_perm_invariant_witness :
    dirichletLoss [[(2 : ℝ)], [3]] [[(1 : ℝ)], [0]] =
      dirichletLoss [[(3 : ℝ)], [2]] [[(0 : ℝ)], [1]] := by
  have h : ([([(2 : ℝ)], [(1 : ℝ)]), ([(3 : ℝ)], [(0 : ℝ)])] : List (List ℝ × List ℝ)).Perm
      [([(3 : ℝ)], [(0 : ℝ)]), ([(2 : ℝ)], [(1 : ℝ)])] := List.Perm.swap _ _ _
  exact loss_perm_invariant _ _ h

/-- C5 counterexample: _get_dirichlet_mixture_stats applied to a zero-row
input does not fail fast; it returns an ordinary value (here the empty mean
and variance vectors). The function has no error path at all. -/
theorem mixtureStats_empty_returns_value :
    dirichletMixtureStats ([] : List (List ℚ)) = (([] : List ℚ), ([] : List ℚ)) := rfl

/-- C5 amended: neither function validates its input. The mixture
statistics function is total: for every input, including zero rows and
nonpositive entries, it returns mean and variance vectors of width numCols
(in floating point these are silently NaN for invalid inputs, not an
error); the loss likewise evaluates its formula unconditionally, shown
here at an alpha with a nonpositive entry. -/
theorem no_input_validation :
    (∀ alpha : List (List ℚ),
      (dirichletMixtureStats alpha).1.length = numCols alpha ∧
      (dirichletMixtureStats alpha).2.length = numCols alpha) ∧
    dirichletLoss [[(-1 : ℝ), 1]] [[1, 0]] = rowTerm [(-1 : ℝ), 1] (smoothRow [1, 0]) := by
  constructor
  · intro alpha
    constructor
    · show (colMean (numCols alpha) (alpha.map compM1)).length = _
      rw [colMean, List.length_map, List.length_range]
    · show (List.zipWith (fun q p => q - p ^ 2)
        (colMean (numCols alpha) (alpha.map compM2))
        (colMean (numCols alpha) (alpha.map compM1))).length = _
      simp only [List.length_zipWith, colMean, List.length_map, List.length_range, Nat.min_self]
  · show (List.zipWith rowTerm [[(-1 : ℝ), 1]] (smoothTarget [[1, 0]])).sum /
      ((List.zipWith rowTerm [[(-1 : ℝ), 1]] (smoothTarget [[1, 0]])).length : ℝ) = _
    simp [smoothTarget]
